import Mathlib

/-!
# Verification of the `ivy_builder` dataset slicing/caching engine

Shallow embedding of `ivy_builder/dataset.py`: the LRU `Cache`, the
`Dataset` slice pipeline (wrapping, cache splitting, base fetching,
joining), the parallel fan-out path of `Dataset.__getitem__`, the
integer-coercion helper `_ensure_number_is_int`, the `batch`/`unbatch`
size bookkeeping, and the worker-pool teardown `_end_multiprocessing`.

Conventions of the embedding:
* A slice request is a pair of `Nat` endpoints with unit step (all slices
  built by the engine have step 1; wrap-around is encoded by `stop < start`
  exactly as in the source).
* A base dataset of the simple (transform-free) pipeline stage is a total
  function `f : Nat → α` giving the per-index leaf value; a materialized
  segment (container result restricted to one leaf) is a `List α`.
  `ivy.Container.list_join` on segments is list append / flatten, and the
  `x if isinstance(x, list) else [x]` wrapping of a cached unit value is
  the singleton list.
* Python numbers that matter for control flow are modelled exactly:
  `ℚ` for float arithmetic (`np.linspace`, `np.round`, `% 1`), `Int`
  where the code subtracts raw endpoints, with banker's rounding for
  `round`/`np.round`.
-/

/-- A slice request `slice(start, stop, 1)`.  All slices produced by the
engine have unit step; wrap-around ranges are encoded by `stop < start`. -/
structure Slice where
  start : Nat
  stop : Nat
deriving Repr, DecidableEq

/-- The key list of an association list, in storage order. -/
def keysOf {α : Type} (d : List (Nat × α)) : List Nat :=
  d.map Prod.fst

/-- `Cache` from `dataset.py`: `_max_size`, `_used_keys` (recency order,
least-recently-used first) and `_dict` (an insertion-ordered key→value
mapping, modelled as an association list). -/
structure Cache (α : Type) where
  maxSize : Nat
  usedKeys : List Nat
  dict : List (Nat × α)
deriving Repr

/-- `Cache.__contains__`: membership in `_dict`. -/
def Cache.contains {α : Type} (c : Cache α) (k : Nat) : Bool :=
  c.dict.any (fun p => p.1 = k)

/-- `Cache.__getitem__`: lookup in `_dict`.  The source raises `KeyError`
for an absent key; callers always check `__contains__` first, so the
`default` branch is unreachable in every use below. -/
def Cache.get {α : Type} [Inhabited α] (c : Cache α) (k : Nat) : α :=
  match c.dict.find? (fun p => p.1 = k) with
  | some p => p.2
  | none => default

/-- `Cache.__setitem__`: refresh recency for a present key (the stored
value is left untouched — the method returns before `_dict[key] = value`);
otherwise append the key, and if occupancy exceeds `_max_size` evict the
least-recently-used key (head of `_used_keys`) first.  The `[]` match arm
is unreachable (`used` ends in `k`); in the source a capacity-0 cache
would raise `KeyError` on the `del`, a situation no caller creates. -/
def Cache.setItem {α : Type} (c : Cache α) (k : Nat) (v : α) : Cache α :=
  if c.contains k then
    { c with usedKeys := c.usedKeys.erase k ++ [k] }
  else
    let used := c.usedKeys ++ [k]
    if c.maxSize < used.length then
      match used with
      | [] => c
      | k0 :: rest =>
        { c with usedKeys := rest,
                 dict := (c.dict.eraseP (fun p => p.1 = k0)) ++ [(k, v)] }
    else
      { c with usedKeys := used, dict := c.dict ++ [(k, v)] }

/-- `Cache(max_size)`: the freshly constructed empty cache. -/
def Cache.empty (α : Type) (m : Nat) : Cache α :=
  ⟨m, [], []⟩

/-- Folding `__setitem__` over a list of key/value pairs, in order. -/
def Cache.insertAll {α : Type} (kvs : List (Nat × α)) (m : Nat) : Cache α :=
  kvs.foldl (fun c p => c.setItem p.1 p.2) (Cache.empty α m)

/-- Well-formedness of a cache state, maintained by every construction in
the source: recency keys are distinct, `_dict` holds exactly the same keys,
and occupancy never exceeds `_max_size`. -/
def Cache.WF {α : Type} (c : Cache α) : Prop :=
  c.usedKeys.Nodup ∧
  (∀ k, k ∈ keysOf c.dict ↔ k ∈ c.usedKeys) ∧
  (keysOf c.dict).Nodup ∧
  c.usedKeys.length ≤ c.maxSize

/-- One pipeline stage of `Dataset` with no `trans_fn` and the default
slice functions (the configuration every claim below exercises): the base
dataset (leaf value per index), the declared `_size`, the `_with_caching`
flag and the `_cache`. -/
structure DState (α : Type) where
  f : Nat → α
  size : Nat
  withCaching : Bool
  cache : Cache α

/-- `Dataset._wrap_slice_obj` (slice branch): wrap both endpoints mod
`_size`, except that a `stop` equal to `ceil(size)` (= `size` for the
integer sizes used here) is kept unwrapped. -/
def wrapSliceObj (s : Slice) (size : Nat) : Slice :=
  ⟨s.start % size, if s.stop = size then s.stop else s.stop % size⟩

/-- `Dataset._wrap_base_slice_obj` (slice branch): a `stop` of 0 means
"to the end"; a wrapped range (`stop < start`) is resolved into the two
physical ranges `[start, size)` and `[0, stop)`. -/
def wrapBaseSliceObj (s : Slice) (size : Nat) : Slice ⊕ (Slice × Slice) :=
  let s1 := if s.stop = 0 then Slice.mk s.start size else s
  if s1.stop < s1.start then
    Sum.inr (⟨s1.start, size⟩, ⟨0, s1.stop⟩)
  else
    Sum.inl s1

/-- `Dataset._get_base_item` for a transform-free stage: the default base
slice function fetches `base_dataset[start:stop]`. -/
def getBaseItem {α : Type} (st : DState α) (s : Slice) : List α :=
  (List.range' s.start (s.stop - s.start)).map st.f

/-- `Dataset._default_slice_fn` (slice branch): re-slice the fetched
segment down to `[0, slice_size)` where `slice_size` is the logical width
of the request (wrap-aware). -/
def defaultSliceFn {α : Type} (slc : Slice) (item : List α) (size : Nat) : List α :=
  let sliceSize := if slc.start < slc.stop then slc.stop - slc.start
                   else slc.stop + size - slc.start
  item.take sliceSize

/-- `Dataset._get_item_from_slice_objs`: fetch one base range, or join the
two halves of a resolved wrap-around range, then apply the slice fn. -/
def getItemFromSliceObjs {α : Type} (st : DState α) (bso : Slice ⊕ (Slice × Slice))
    (slc : Slice) : List α :=
  let item := match bso with
    | Sum.inl s => getBaseItem st s
    | Sum.inr p => getBaseItem st p.1 ++ getBaseItem st p.2
  defaultSliceFn slc item st.size

/-- `Dataset._get_item_after_cache_n_wrap`. -/
def getItemAfterCacheNWrap {α : Type} (st : DState α) (slc : Slice) : List α :=
  getItemFromSliceObjs st (wrapBaseSliceObj slc st.size) slc

/-- The scan loop of `Dataset._split_slice_obj`: walk the unit indices of
the range in order, cutting out each cached index as a width-1 cached
piece and closing the pending uncached gap before it. -/
def splitScan {α : Type} (c : Cache α) :
    List Nat → List (Bool × Slice) → Nat → List (Bool × Slice) × Nat
  | [], acc, start => (acc, start)
  | i :: rest, acc, start =>
    if c.contains i then
      splitScan c rest
        ((if i = start then acc else acc ++ [(false, ⟨start, i⟩)]) ++ [(true, ⟨i, i + 1⟩)])
        (i + 1)
    else
      splitScan c rest acc start

/-- `Dataset._split_slice_obj` (slice branch): partition the request into
an ordered list of `(is_cached, sub_slice)` pieces. -/
def splitSliceObj {α : Type} (slc : Slice) (c : Cache α) : List (Bool × Slice) :=
  let scanned := splitScan c (List.range' slc.start (slc.stop - slc.start)) [] slc.start
  if scanned.2 < slc.stop then
    scanned.1 ++ [(false, ⟨scanned.2, slc.stop⟩)]
  else if scanned.1.isEmpty then
    [(false, slc)]
  else
    scanned.1

/-- `Dataset._add_to_cache` (slice branch): cache each unit index of the
fetched range separately (`np.arange(start, stop - 1e-3)` enumerates the
integers of `[start, stop)`), storing the unit value sliced out of the
segment.  The `getD` default is unreachable: every call sites's segment
has exactly `stop - start` elements. -/
def addToCache {α : Type} [Inhabited α] (c : Cache α) (so : Slice) (item : List α) :
    Cache α :=
  (List.range' so.start (so.stop - so.start)).foldl
    (fun c i => c.setItem i (item.getD (i - so.start) default)) c

/-- The fetch loop of `Dataset._get_item`: process the pieces in order,
reading cached units from the (pre-query) cache and fetching uncached
sub-ranges from the base; returns the per-piece segments (a cached unit
becomes a singleton, matching the `[x]` wrapping in the source), the
pieces to insert into the cache afterwards, and the number of uncached
fetches performed (the instrumentation the idempotence claim speaks of). -/
def processPieces {α : Type} [Inhabited α] (st : DState α) :
    List (Bool × Slice) → List (List α) × List (Slice × List α) × Nat
  | [] => ([], [], 0)
  | (fromCache, so) :: rest =>
    let r := processPieces st rest
    if fromCache then
      ([st.cache.get so.start] :: r.1, r.2)
    else
      let item := getItemAfterCacheNWrap st so
      (item :: r.1,
       (if st.withCaching then (so, item) :: r.2.1 else r.2.1),
       r.2.2 + 1)

/-- `Dataset._get_item` (slice branch): wrap, split by cache, fetch, then
insert the freshly fetched pieces into the cache and join all segments in
request order.  Returns the result, the post-query stage state, and the
number of uncached fetches. -/
def getItem {α : Type} [Inhabited α] (st : DState α) (slc : Slice) :
    List α × DState α × Nat :=
  let so := wrapSliceObj slc st.size
  let pieces := splitSliceObj so st.cache
  let r := processPieces st pieces
  let cache1 := r.2.1.foldl (fun c p => addToCache c p.1 p.2) st.cache
  (r.1.flatten, { st with cache := cache1 }, r.2.2)

/-- `Dataset._get_item` (point branch): wrap the index, serve it from the
cache when present, otherwise fetch the width-1 base range, take its only
element (`_default_slice_fn` with a numeric request), and cache it when
caching is enabled. -/
def getItemPoint {α : Type} [Inhabited α] (st : DState α) (i : Nat) :
    α × DState α × Nat :=
  let i1 := i % st.size
  if st.cache.contains i1 then
    (st.cache.get i1, st, 0)
  else
    let item := (getBaseItem st ⟨i1, i1 + 1⟩).getD 0 default
    if st.withCaching then
      (item, { st with cache := st.cache.setItem i1 item }, 1)
    else
      (item, st, 1)

/-- Consistency of a cache with the base dataset: every stored unit value
is the base value of its key.  Every reachable cache state of a
transform-free stage satisfies this (values are only ever written by
`_add_to_cache` from freshly fetched base segments). -/
def CacheConsistent {α : Type} (c : Cache α) (f : Nat → α) : Prop :=
  ∀ p ∈ c.dict, p.2 = f p.1

/-- Banker's rounding of a rational: Python's builtin `round` and
`np.round` both round halves to the nearest even integer. -/
def roundHalfEven (q : ℚ) : ℤ :=
  let fl := ⌊q⌋
  if q - fl < 1 / 2 then fl
  else if 1 / 2 < q - fl then fl + 1
  else if fl % 2 = 0 then fl else fl + 1

/-- Python's `val % 1`: the fractional part, in `[0, 1)` for every sign
of `val` (Python's `%` follows the divisor's sign). -/
def pyMod1 (q : ℚ) : ℚ :=
  q - ⌊q⌋

/-- The fixed message text of `Dataset._ensure_number_is_int`'s exception;
the error payload carries the interpolated offending value alongside it. -/
def nonIntSliceMsg : String :=
  "Trying to slice ivy Container with non-integer slice "

/-- `Dataset._ensure_number_is_int`: reject a value whose fractional part
exceeds `1e-6` with an exception mentioning the value, otherwise return
`int(round(val))`. -/
def ensureNumberIsInt (val : ℚ) : Except (String × ℚ) ℤ :=
  if 1 / 1000000 < pyMod1 val then
    Except.error (nonIntSliceMsg, val)
  else
    Except.ok (roundHalfEven val)

/-- The exact value of `np.linspace(a, b, n + 1)` at position `k`
(spacing `(b - a) / n`; a single-point linspace returns `a`). -/
def linspaceQ (a b n k : Nat) : ℚ :=
  if n = 0 then (a : ℚ)
  else (a : ℚ) + (k : ℚ) * ((b : ℚ) - (a : ℚ)) / (n : ℚ)

/-- The parallel fan-out branch of `Dataset.__getitem__` for a slice
request: split the request into `min(slice_size, num_processes)`
sub-slices at the rounded linspace points, dispatch sub-slice `i` to
worker `(i + offset) % P` and collect the worker results in dispatch
order (each worker holds its own deep-copied stage, so the result for
sub-slice `i` is that worker's `_get_item`; the queues are FIFO and each
worker receives at most one sub-slice, so scheduling cannot reorder
anything).  The mismatch-logging block then recomputes every sub-slice
inline through `self._get_item`, which threads the coordinator's own
state; the returned items are the worker ones.  `np.linspace` raises when
its sample count `num_sub_slices + 1` is negative, which happens exactly
for wrap-around requests (`stop < start`).

`slice_points`/`sub_slices` of the fan-out: split `[start, stop)` at the
banker's-rounded points of `np.linspace(start, stop, num_sub_slices + 1)`
where `num_sub_slices = min(stop - start, num_processes)`. -/
def fanOutSubSlices (P : Nat) (slc : Slice) : List Slice :=
  let sliceSize : Int := (slc.stop : Int) - (slc.start : Int)
  let n := (min sliceSize (P : Int)).toNat
  (List.range n).map (fun k =>
    ⟨(roundHalfEven (linspaceQ slc.start slc.stop n k)).toNat,
      (roundHalfEven (linspaceQ slc.start slc.stop n (k + 1))).toNat⟩)

def parallelGetItem {α : Type} [Inhabited α] (st : DState α)
    (workers : Nat → DState α) (P offset : Nat) (slc : Slice) :
    Except String (List α × DState α) :=
  let sliceSize : Int := (slc.stop : Int) - (slc.start : Int)
  let numSubSlices : Int := min sliceSize (P : Int)
  if numSubSlices + 1 < 0 then
    Except.error "ValueError: Number of samples must be non-negative"
  else
    let subSlices : List Slice := fanOutSubSlices P slc
    let itemsAsLists : List (List α) :=
      subSlices.enum.map (fun p => (getItem (workers ((p.1 + offset) % P)) p.2).1)
    let stAfterTrue : DState α :=
      subSlices.foldl (fun s ss => (getItem s ss).2.1) st
    Except.ok (itemsAsLists.flatten, stAfterTrue)

/-- A Python number as stored in `Dataset._size`: an `int` or a `float`
(exact rational value). -/
inductive PyNum where
  | int (n : Int)
  | float (q : ℚ)
deriving Repr, DecidableEq

/-- The size `Dataset.batch` stores on the batched stage:
`float(self._size / batch_size)` — always a Python `float`. -/
def batchStageSize (n b : Nat) : PyNum :=
  PyNum.float ((n : ℚ) / (b : ℚ))

/-- Python's `range(x)` as used by `Dataset.unbatch` on `self._size`:
defined for an `int` (empty for a non-positive one), a `TypeError` for a
`float` — even an integral-valued one. -/
def pyRange (x : PyNum) : Except String (List Nat) :=
  match x with
  | PyNum.int n => Except.ok (List.range n.toNat)
  | PyNum.float _ =>
      Except.error "TypeError: float object cannot be interpreted as an integer"

/-- The first statement of `Dataset.unbatch`'s eager index-building loop,
`for i in range(self._size)`, applied to the stored size of the stage
being unbatched. -/
def unbatchOuterIndices (size : PyNum) : Except String (List Nat) :=
  pyRange size

/-- The worker-pool bookkeeping of a `Dataset`: `_num_processes`, and the
`_workers`/`_slice_queues`/`_output_queues` attributes, which exist
(`some n`, with `n` live workers) until `_end_multiprocessing` deletes
them (`none`). -/
structure MPDataset where
  numProcesses : Nat
  workers : Option Nat
deriving Repr, DecidableEq

/-- `Dataset._end_multiprocessing`: a no-op for a single-process stage;
otherwise drain and delete the worker bookkeeping.  When the attributes
were already deleted by a previous call, both the `try` body and the
`finally` block hit `self._workers` and the call raises `AttributeError`
(the queue/join traffic itself is external I/O with no further effect on
the modelled state). -/
def endMultiprocessing (d : MPDataset) : Except String MPDataset :=
  if 1 < d.numProcesses then
    match d.workers with
    | some _ => Except.ok { d with workers := none }
    | none => Except.error "AttributeError: _workers"
  else
    Except.ok d

/-! ## Basic cache lemmas -/

theorem keysOf_append {α : Type} (a b : List (Nat × α)) :
    keysOf (a ++ b) = keysOf a ++ keysOf b := by
  simp [keysOf]

theorem contains_iff_mem {α : Type} (c : Cache α) (k : Nat) :
    c.contains k = true ↔ k ∈ keysOf c.dict := by
  simp only [Cache.contains, List.any_eq_true, keysOf, List.mem_map, decide_eq_true_eq]

theorem contains_eq_false_iff {α : Type} (c : Cache α) (k : Nat) :
    c.contains k = false ↔ k ∉ keysOf c.dict := by
  constructor
  · intro h hmem
    have := (contains_iff_mem c k).mpr hmem
    rw [h] at this
    exact Bool.false_ne_true this
  · intro h
    cases hc : c.contains k
    · rfl
    · exact absurd ((contains_iff_mem c k).mp hc) h

/-! ## The LRU closed form for distinct-key insertion sequences (C5) -/

/-- The cache state reached by inserting a sequence of distinct key/value
pairs into a fresh cache of capacity `m`: only the last `m` pairs remain,
in order, in both the recency list and the store. -/
def lruState (α : Type) (m : Nat) (kvs : List (Nat × α)) : Cache α :=
  ⟨m, keysOf (kvs.drop (kvs.length - m)), kvs.drop (kvs.length - m)⟩

theorem setItem_lruState {α : Type} (m : Nat) (hm : 0 < m)
    (done : List (Nat × α)) (p : Nat × α)
    (hnd : (keysOf (done ++ [p])).Nodup) :
    (lruState α m done).setItem p.1 p.2 = lruState α m (done ++ [p]) := by
  have hp : p.1 ∉ keysOf done := by
    rw [keysOf_append] at hnd
    rcases List.nodup_append.mp hnd with ⟨-, -, hdisj⟩
    intro hmem
    exact hdisj hmem (by simp [keysOf])
  have hpsfx : p.1 ∉ keysOf (done.drop (done.length - m)) := fun hmem =>
    hp (by
      rcases List.mem_map.mp hmem with ⟨q, hq, hq1⟩
      exact hq1 ▸ List.mem_map_of_mem Prod.fst (List.mem_of_mem_drop hq))
  have hcont : (lruState α m done).contains p.1 = false :=
    (contains_eq_false_iff _ _).mpr hpsfx
  rw [Cache.setItem, if_neg (by simp [hcont])]
  simp only [lruState]
  by_cases hlen : done.length < m
  · have h0 : done.length - m = 0 := by omega
    have h1 : done.length + 1 - m = 0 := by omega
    rw [h0]
    simp only [List.drop_zero]
    rw [if_neg (by
      simp only [keysOf, List.length_append, List.length_map, List.length_cons,
        List.length_nil]
      omega)]
    simp [keysOf, h1]
  · have hm' : m ≤ done.length := Nat.le_of_not_lt hlen
    have hsfxlen : (done.drop (done.length - m)).length = m := by
      simp [List.length_drop]; omega
    obtain ⟨q, sfx', hq⟩ : ∃ q sfx', done.drop (done.length - m) = q :: sfx' := by
      cases hsfx : done.drop (done.length - m) with
      | nil => rw [hsfx] at hsfxlen; simp at hsfxlen; omega
      | cons q t => exact ⟨q, t, rfl⟩
    have hsfx'len : sfx'.length + 1 = m := by
      rw [hq] at hsfxlen; simpa using hsfxlen
    rw [hq]
    have hkq : keysOf (q :: sfx') = q.1 :: keysOf sfx' := by simp [keysOf]
    rw [hkq]
    rw [if_pos (by
      simp only [List.cons_append, List.length_cons, List.length_append,
        List.length_map, List.length_nil, keysOf]
      omega)]
    simp only [List.cons_append]
    have herase : (q :: sfx').eraseP (fun e => decide (e.1 = q.1)) = sfx' := by
      simp [List.eraseP_cons]
    rw [herase]
    have hdrop1 : done.drop (done.length + 1 - m) = sfx' := by
      have h2 : done.length + 1 - m = (done.length - m) + 1 := by omega
      rw [h2, ← List.tail_drop, hq]
      rfl
    have hdrop2 : (done ++ [p]).drop ((done ++ [p]).length - m) = sfx' ++ [p] := by
      have hlen2 : (done ++ [p]).length = done.length + 1 := by simp
      rw [hlen2, List.drop_append_of_le_length (by omega), hdrop1]
    rw [hdrop2]
    simp [keysOf]

theorem foldl_setItem_lruState {α : Type} (m : Nat) (hm : 0 < m) :
    ∀ (rest done : List (Nat × α)), (keysOf (done ++ rest)).Nodup →
      rest.foldl (fun c p => c.setItem p.1 p.2) (lruState α m done) =
        lruState α m (done ++ rest)
  | [], done, _ => by simp
  | p :: rest, done, h => by
    have hassoc : done ++ p :: rest = (done ++ [p]) ++ rest := by simp
    have hbig : (keysOf ((done ++ [p]) ++ rest)).Nodup := by
      rw [← hassoc]; exact h
    have hnd1 : (keysOf (done ++ [p])).Nodup := by
      have hsub : List.Sublist (keysOf (done ++ [p])) (keysOf ((done ++ [p]) ++ rest)) :=
        List.Sublist.map Prod.fst (List.sublist_append_left _ _)
      exact List.Nodup.sublist hsub hbig
    rw [List.foldl_cons]
    have hstep : (lruState α m done).setItem p.1 p.2 = lruState α m (done ++ [p]) :=
      setItem_lruState m hm done p hnd1
    rw [hstep, foldl_setItem_lruState m hm rest (done ++ [p]) hbig, ← hassoc]

theorem insertAll_eq_lruState {α : Type} (kvs : List (Nat × α)) (m : Nat)
    (hm : 0 < m) (hnd : (keysOf kvs).Nodup) :
    Cache.insertAll kvs m = lruState α m kvs := by
  have h0 : lruState α m [] = Cache.empty α m := by
    simp [lruState, Cache.empty, keysOf]
  rw [Cache.insertAll, ← h0, foldl_setItem_lruState m hm kvs [] (by simpa using hnd)]
  simp

/-- C5: after putting more than `max_size` distinct keys in order into a
fresh cache, the cache contains exactly the `max_size` most-recently-used
keys (the last `max_size` of the sequence), and `contains` is false for
every evicted key.  (A capacity-0 cache is excluded: in the source the
first insertion into it raises `KeyError` on the eviction `del`.) -/
theorem cache_lru_keeps_last_maxSize {α : Type} (kvs : List (Nat × α)) (m : Nat)
    (hm : 0 < m) (hnd : (keysOf kvs).Nodup) (_hlen : m < kvs.length) (k : Nat) :
    (Cache.insertAll kvs m).contains k = true ↔
      k ∈ (keysOf kvs).drop (kvs.length - m) := by
  rw [insertAll_eq_lruState kvs m hm hnd, contains_iff_mem]
  simp only [lruState]
  rw [show keysOf (kvs.drop (kvs.length - m)) = (keysOf kvs).drop (kvs.length - m) from
    (List.map_drop ..).symm ▸ rfl]

/-- Witness for C5 at a concrete run: keys 1, 2, 3 into a capacity-2
cache; 1 is evicted, 2 and 3 remain. -/
theorem cache_lru_keeps_last_maxSize_witness :
    (Cache.insertAll [(1, 10), (2, 20), (3, 30)] 2).contains 3 = true ∧
      ¬ (Cache.insertAll [(1, 10), (2, 20), (3, 30)] 2).contains 1 = true := by
  have h3 := cache_lru_keeps_last_maxSize [(1, 10), (2, 20), (3, 30)] 2
    (by decide) (by decide) (by decide) 3
  have h1 := cache_lru_keeps_last_maxSize [(1, 10), (2, 20), (3, 30)] 2
    (by decide) (by decide) (by decide) 1
  exact ⟨h3.mpr (by decide), fun hh => absurd (h1.mp hh) (by decide)⟩

/-- C10: putting a value under an already-present key leaves the stored
mapping (hence any subsequent `get` of that key) unchanged — the source
returns before `self._dict[key] = value` — and only refreshes the key's
recency position. -/
theorem cache_put_present_keeps_value {α : Type} [Inhabited α] (c : Cache α)
    (k : Nat) (v : α) (h : c.contains k = true) :
    (c.setItem k v).dict = c.dict ∧
      (c.setItem k v).get k = c.get k ∧
      (c.setItem k v).usedKeys = c.usedKeys.erase k ++ [k] := by
  rw [Cache.setItem, if_pos (by simp [h])]
  exact ⟨rfl, rfl, rfl⟩

/-- Witness for C10: refreshing key 1 (stored value 10) with a new value
99 still yields 10 on lookup. -/
theorem cache_put_present_keeps_value_witness :
    ((⟨2, [1], [(1, 10)]⟩ : Cache Nat).setItem 1 99).dict = [(1, 10)] ∧
      ((⟨2, [1], [(1, 10)]⟩ : Cache Nat).setItem 1 99).get 1 = 10 := by
  have h := cache_put_present_keeps_value (⟨2, [1], [(1, 10)]⟩ : Cache Nat) 1 99 (by decide)
  exact ⟨h.1, by rw [h.2.1]; rfl⟩

/-! ## `_split_slice_obj` scan lemmas -/

theorem splitScan_no_hit {α : Type} (c : Cache α) (l : List Nat)
    (h : ∀ i ∈ l, c.contains i = false) :
    ∀ acc start, splitScan c l acc start = (acc, start) := by
  induction l with
  | nil => intro acc start; rfl
  | cons i rest ih =>
    intro acc start
    rw [splitScan, if_neg (by simp [h i (List.mem_cons_self i rest)])]
    exact ih (fun j hj => h j (List.mem_cons_of_mem i hj)) acc start

/-- C6: on a range none of whose unit indices is cached,
`_split_slice_obj` returns the whole range as a single uncached piece. -/
theorem split_all_miss {α : Type} (slc : Slice) (c : Cache α)
    (hw : slc.start ≤ slc.stop)
    (h : ∀ i, slc.start ≤ i → i < slc.stop → c.contains i = false) :
    splitSliceObj slc c = [(false, slc)] := by
  rw [splitSliceObj]
  rw [splitScan_no_hit c _ (fun i hi => by
    rcases List.mem_range'_1.mp hi with ⟨h1, h2⟩
    exact h i h1 (by omega))]
  by_cases h1 : slc.start < slc.stop
  · rw [if_pos h1]
    rfl
  · rw [if_neg h1]
    rfl

/-- Witness for C6: range `[2, 5)` against an empty cache. -/
theorem split_all_miss_witness :
    splitSliceObj (⟨2, 5⟩ : Slice) (Cache.empty Nat 3) = [(false, ⟨2, 5⟩)] :=
  split_all_miss ⟨2, 5⟩ (Cache.empty Nat 3) (by decide) (fun i _ _ => rfl)

/-- C1: the wrap-around range query `[8, 2)` on a size-10 stage returns
the four per-index results for indices 8, 9, 0, 1 in that order; the
wrapped request is resolved into the physical base ranges `[8, 10)` and
`[0, 2)`, and the fetched halves are joined in that order. -/
theorem wrap_range_query_size_ten {α : Type} [Inhabited α] (f : Nat → α) (m : Nat) :
    (getItem ⟨f, 10, true, Cache.empty α m⟩ ⟨8, 2⟩).1 = [f 8, f 9, f 0, f 1] ∧
      wrapBaseSliceObj (wrapSliceObj ⟨8, 2⟩ 10) 10 = Sum.inr (⟨8, 10⟩, ⟨0, 2⟩) ∧
      getItemAfterCacheNWrap ⟨f, 10, true, Cache.empty α m⟩ ⟨8, 2⟩ =
        getBaseItem ⟨f, 10, true, Cache.empty α m⟩ ⟨8, 10⟩ ++
          getBaseItem ⟨f, 10, true, Cache.empty α m⟩ ⟨0, 2⟩ :=
  ⟨rfl, rfl, rfl⟩

/-- Witness for C1 at a concrete base dataset. -/
theorem wrap_range_query_size_ten_witness :
    (getItem ⟨fun i => i * 10, 10, true, Cache.empty Nat 3⟩ ⟨8, 2⟩).1 = [80, 90, 0, 10] :=
  (wrap_range_query_size_ten (fun i => i * 10) 3).1

/-! ## `_ensure_number_is_int` (C7) -/

theorem pyMod1_nonneg (v : ℚ) : 0 ≤ pyMod1 v := by
  have := Int.floor_le v
  simp only [pyMod1]
  linarith

theorem roundHalfEven_of_small_frac (v : ℚ) (h : pyMod1 v ≤ 1 / 1000000) :
    roundHalfEven v = ⌊v⌋ := by
  rw [roundHalfEven]
  rw [if_pos]
  have : v - (⌊v⌋ : ℚ) = pyMod1 v := rfl
  rw [this]
  linarith

/-- Counterexample to C7 as stated: `v = 5 - 1e-7` is within `1e-6` of the
nearest integer (5), yet `_ensure_number_is_int` rejects it, because the
code tests the fractional part `val % 1` (here `1 - 1e-7`), not the
distance to the nearest integer. -/
theorem ensure_int_rejects_just_below_integer :
    ((5 : ℚ) - (5 - 1 / 10000000) ≤ 1 / 1000000 ∧ (0 : ℚ) ≤ 5 - (5 - 1 / 10000000)) ∧
      ensureNumberIsInt (5 - 1 / 10000000) =
        Except.error (nonIntSliceMsg, 5 - 1 / 10000000) := by
  constructor
  · constructor <;> norm_num
  · rw [ensureNumberIsInt, if_pos]
    have hfl : ⌊(5 : ℚ) - 1 / 10000000⌋ = 4 := by
      rw [Int.floor_eq_iff]
      norm_num
    rw [pyMod1, hfl]
    norm_num

/-- C7 (amended): the operation succeeds exactly when the *fractional
part* `v % 1` is at most `1e-6`; then it returns `⌊v⌋`, which is within
`1e-6` of `v` (the nearest integer).  Otherwise it aborts with the
exception whose payload carries the offending value.  (Values just below
an integer, with fractional part `> 1e-6`, are rejected even when within
`1e-6` of the nearest integer — see the counterexample.) -/
theorem ensure_int_fractional_tolerance (v : ℚ) :
    (pyMod1 v ≤ 1 / 1000000 →
      ensureNumberIsInt v = Except.ok ⌊v⌋ ∧ |v - (⌊v⌋ : ℚ)| ≤ 1 / 1000000) ∧
      (1 / 1000000 < pyMod1 v →
        ensureNumberIsInt v = Except.error (nonIntSliceMsg, v)) := by
  constructor
  · intro h
    constructor
    · rw [ensureNumberIsInt, if_neg (not_lt.mpr h), roundHalfEven_of_small_frac v h]
    · have h0 : v - (⌊v⌋ : ℚ) = pyMod1 v := rfl
      rw [h0, abs_of_nonneg (pyMod1_nonneg v)]
      exact h
  · intro h
    rw [ensureNumberIsInt, if_pos h]

/-- Witness for C7 (amended): `4 + 5e-7` is accepted as 4; `1/2` is
rejected with its value in the error payload. -/
theorem ensure_int_fractional_tolerance_witness :
    ensureNumberIsInt (4 + 1 / 2000000) = Except.ok 4 ∧
      ensureNumberIsInt (1 / 2) = Except.error (nonIntSliceMsg, 1 / 2) := by
  have hfl : ⌊(4 : ℚ) + 1 / 2000000⌋ = 4 := by
    rw [Int.floor_eq_iff]
    norm_num
  have h1 := (ensure_int_fractional_tolerance (4 + 1 / 2000000)).1 (by
    rw [pyMod1, hfl]
    norm_num)
  have h2 := (ensure_int_fractional_tolerance (1 / 2)).2 (by
    rw [pyMod1, show ⌊(1 : ℚ) / 2⌋ = 0 from by rw [Int.floor_eq_iff]; norm_num]
    norm_num)
  exact ⟨hfl ▸ h1.1, h2⟩

/-! ## Worker-pool teardown (C8) -/

/-- Counterexample to C8 as stated: on a 3-worker dataset the first
teardown succeeds and deletes the worker attributes; the second call hits
`self._workers` and raises `AttributeError` instead of succeeding. -/
theorem end_multiprocessing_second_call_fails :
    endMultiprocessing ⟨3, some 3⟩ = Except.ok ⟨3, none⟩ ∧
      endMultiprocessing ⟨3, none⟩ = Except.error "AttributeError: _workers" :=
  ⟨rfl, rfl⟩

/-- C8 (amended): teardown is *not* idempotent.  For every multi-process
stage with live worker bookkeeping, the first `_end_multiprocessing`
succeeds and deletes the `_workers`/queue attributes; any further call
(including the destructor's, whose exception the runtime merely
suppresses) raises `AttributeError`. -/
theorem end_multiprocessing_once_then_error (d : MPDataset) (n : Nat)
    (h1 : 1 < d.numProcesses) (h2 : d.workers = some n) :
    endMultiprocessing d = Except.ok { d with workers := none } ∧
      endMultiprocessing { d with workers := none } =
        Except.error "AttributeError: _workers" := by
  rw [endMultiprocessing, endMultiprocessing]
  rw [h2]
  simp [h1]

/-- Witness for C8 (amended) on a 2-worker stage. -/
theorem end_multiprocessing_once_then_error_witness :
    endMultiprocessing ⟨2, some 2⟩ = Except.ok ⟨2, none⟩ ∧
      endMultiprocessing ⟨2, none⟩ = Except.error "AttributeError: _workers" :=
  end_multiprocessing_once_then_error ⟨2, some 2⟩ 2 (by decide) rfl

/-! ## `batch` then `unbatch` (C3) -/

/-- C3 fails in the code: `batch` stores the new size as a Python float
(`float(self._size / batch_size)`), and `unbatch` begins by iterating
`range(self._size)`, which raises `TypeError` for every float — even an
integral-valued one.  So `batch(b)` followed by `unbatch()` aborts during
construction for every size `N` and every batch size `b` (in particular
when `b` divides `N`), and the claimed round trip never happens. -/
theorem batch_then_unbatch_raises_type_error (N b : Nat) :
    unbatchOuterIndices (batchStageSize N b) =
      Except.error "TypeError: float object cannot be interpreted as an integer" :=
  rfl

/-! ## Partition spec of the split scan -/

/-- The unit indices covered by a piece list, in order. -/
def coversP (pieces : List (Bool × Slice)) : List Nat :=
  (pieces.map (fun q => List.range' q.2.start (q.2.stop - q.2.start))).flatten

/-- Shape invariant of the pieces produced by `_split_slice_obj` against a
range ending at `hi`: a cached piece is a unit slice whose index is in the
cache; an uncached piece is a nonempty sub-range ending at or before `hi`. -/
def PieceOK {α : Type} (c : Cache α) (hi : Nat) (q : Bool × Slice) : Prop :=
  (q.1 = true → c.contains q.2.start = true ∧ q.2.stop = q.2.start + 1) ∧
  (q.1 = false → q.2.start < q.2.stop ∧ q.2.stop ≤ hi)

theorem coversP_nil : coversP [] = [] := rfl

theorem coversP_cons (q : Bool × Slice) (P : List (Bool × Slice)) :
    coversP (q :: P) = List.range' q.2.start (q.2.stop - q.2.start) ++ coversP P := by
  simp [coversP]

theorem range'_append_range' (s m n : Nat) :
    List.range' s m ++ List.range' (s + m) n = List.range' s (m + n) := by
  have h := List.range'_append s m n 1
  simp only [one_mul, Nat.add_comm n m] at h
  simpa using h

theorem splitScan_spec {α : Type} (c : Cache α) :
    ∀ (n j st : Nat) (acc : List (Bool × Slice)), st ≤ j →
      ∃ P st2,
        splitScan c (List.range' j n) acc st = (acc ++ P, st2) ∧
        st ≤ st2 ∧ st2 ≤ j + n ∧
        coversP P ++ List.range' st2 (j + n - st2) = List.range' st (j + n - st) ∧
        (∀ q ∈ P, PieceOK c (j + n) q) := by
  intro n
  induction n with
  | zero =>
    intro j st acc hst
    refine ⟨[], st, by simp [splitScan], le_refl st, by omega, ?_, by simp⟩
    simp [coversP]
  | succ n ih =>
    intro j st acc hst
    have harith : j + (n + 1) = (j + 1) + n := by omega
    rw [harith, List.range'_succ]
    by_cases hc : c.contains j = true
    · by_cases hjs : j = st
      · subst hjs
        obtain ⟨P', st2, heq, h1, h2, hcov, hok⟩ :=
          ih (j + 1) (j + 1) (acc ++ [(true, ⟨j, j + 1⟩)]) (le_refl _)
        refine ⟨(true, ⟨j, j + 1⟩) :: P', st2, ?_, by omega, h2, ?_, ?_⟩
        · rw [splitScan, if_pos hc, if_pos rfl]
          rw [heq]
          simp
        · rw [coversP_cons]
          have hn1 : (j : Nat) + 1 - j = 1 := by omega
          have hn2 : (j + 1) + n - j = n + 1 := by omega
          have hx : (j + 1) + n - (j + 1) = n := by omega
          rw [hx] at hcov
          rw [hn1, hn2, List.append_assoc, hcov]
          simp only [List.range'_one, List.singleton_append]
          exact (List.range'_succ ..).symm
        · intro q hq
          rcases List.mem_cons.mp hq with h | h
          · subst h
            exact ⟨fun _ => ⟨hc, rfl⟩, fun hb => nomatch hb⟩
          · exact hok q h
      · have hlt : st < j := lt_of_le_of_ne hst (fun h => hjs h.symm)
        obtain ⟨P', st2, heq, h1, h2, hcov, hok⟩ :=
          ih (j + 1) (j + 1) ((acc ++ [(false, ⟨st, j⟩)]) ++ [(true, ⟨j, j + 1⟩)]) (le_refl _)
        refine ⟨(false, ⟨st, j⟩) :: (true, ⟨j, j + 1⟩) :: P', st2, ?_, by omega, h2, ?_, ?_⟩
        · rw [splitScan, if_pos hc, if_neg hjs]
          rw [heq]
          simp
        · rw [coversP_cons, coversP_cons]
          have hn1 : (j : Nat) + 1 - j = 1 := by omega
          rw [hn1]
          have hx : (j + 1) + n - (j + 1) = n := by omega
          rw [hx] at hcov
          have hgoal : (j + 1) + n - st = (j - st) + (n + 1) := by omega
          rw [hgoal]
          rw [← range'_append_range' st (j - st) (n + 1)]
          have hjst : st + (j - st) = j := by omega
          rw [hjst]
          have hstep : List.range' j (n + 1) = j :: List.range' (j + 1) n := List.range'_succ ..
          rw [hstep, ← hcov]
          simp
        · intro q hq
          rcases List.mem_cons.mp hq with h | h
          · subst h
            exact ⟨(fun hb => nomatch hb), fun _ => ⟨hlt, (by omega : (j : Nat) ≤ (j + 1) + n)⟩⟩
          rcases List.mem_cons.mp h with h2' | h2'
          · subst h2'
            exact ⟨fun _ => ⟨hc, rfl⟩, fun hb => nomatch hb⟩
          · exact hok q h2'
    · obtain ⟨P', st2, heq, h1, h2, hcov, hok⟩ := ih (j + 1) st acc (by omega)
      refine ⟨P', st2, ?_, h1, h2, hcov, hok⟩
      rw [splitScan, if_neg hc]
      exact heq

theorem splitSliceObj_spec {α : Type} (c : Cache α) (s t : Nat) (hst : s < t) :
    coversP (splitSliceObj ⟨s, t⟩ c) = List.range' s (t - s) ∧
      (∀ q ∈ splitSliceObj ⟨s, t⟩ c, PieceOK c t q) := by
  obtain ⟨P, st2, heq, h1, h2, hcov, hok⟩ :=
    splitScan_spec c (t - s) s s [] (le_refl s)
  have hsn : s + (t - s) = t := by omega
  rw [hsn] at h2 hcov hok
  simp only [List.nil_append] at heq
  simp only [splitSliceObj]
  rw [heq]
  by_cases hlt : st2 < t
  · rw [if_pos hlt]
    refine ⟨?_, ?_⟩
    · have hxp : coversP (P ++ [(false, ⟨st2, t⟩)]) =
          coversP P ++ List.range' st2 (t - st2) := by
        simp [coversP]
      rw [hxp, hcov]
    · intro q hq
      rcases List.mem_append.mp hq with h | h
      · exact hok q h
      · rcases List.mem_singleton.mp h with rfl
        exact ⟨(fun hb => nomatch hb), fun _ => ⟨hlt, le_refl t⟩⟩
  · rw [if_neg hlt]
    have hst2 : st2 = t := by omega
    rw [hst2, Nat.sub_self] at hcov
    have hcov0 : coversP P = List.range' s (t - s) := by
      simpa using hcov
    have hPne : P.isEmpty = false := by
      cases hP : P.isEmpty
      · rfl
      · exfalso
        rw [List.isEmpty_iff.mp hP] at hcov0
        have hlen := congrArg List.length hcov0
        simp [coversP] at hlen
        omega
    rw [hPne]
    simp only [Bool.false_eq_true, if_false]
    exact ⟨hcov0, hok⟩

/-! ## Correctness of the fetch loop on in-bounds requests -/

theorem get_eq_of_consistent {α : Type} [Inhabited α] (c : Cache α) (f : Nat → α)
    (hc : CacheConsistent c f) (k : Nat) (h : c.contains k = true) :
    c.get k = f k := by
  cases hfind : c.dict.find? (fun p => p.1 = k) with
  | none =>
    exfalso
    rw [Cache.contains, List.any_eq_true] at h
    rcases h with ⟨p, hp, hpk⟩
    exact (List.find?_eq_none.mp hfind p hp) hpk
  | some q =>
    have hqk : q.1 = k := by simpa using List.find?_some hfind
    have hmem : q ∈ c.dict := List.mem_of_find?_eq_some hfind
    simp [Cache.get, hfind, hc q hmem, hqk]

theorem getItemAfterCacheNWrap_inbounds {α : Type} (st : DState α) (a b : Nat)
    (h1 : a < b) (_h2 : b ≤ st.size) :
    getItemAfterCacheNWrap st ⟨a, b⟩ = (List.range' a (b - a)).map st.f := by
  have hb0 : ((⟨a, b⟩ : Slice).stop = 0) = False := by
    simp only [eq_iff_iff, iff_false]
    show ¬ b = 0
    omega
  rw [getItemAfterCacheNWrap, wrapBaseSliceObj]
  simp only [hb0, if_false]
  rw [if_neg (by show ¬ b < a; omega)]
  rw [getItemFromSliceObjs, defaultSliceFn]
  simp only [if_pos h1, getBaseItem]
  rw [List.take_of_length_le (by simp)]

theorem processPieces_nil {α : Type} [Inhabited α] (st : DState α) :
    processPieces st [] = ([], [], 0) := rfl

theorem processPieces_cons_true {α : Type} [Inhabited α] (st : DState α)
    (so : Slice) (rest : List (Bool × Slice)) :
    processPieces st ((true, so) :: rest) =
      ([st.cache.get so.start] :: (processPieces st rest).1,
        (processPieces st rest).2) := by
  rw [processPieces]
  simp

theorem processPieces_cons_false {α : Type} [Inhabited α] (st : DState α)
    (so : Slice) (rest : List (Bool × Slice)) :
    processPieces st ((false, so) :: rest) =
      (getItemAfterCacheNWrap st so :: (processPieces st rest).1,
        (if st.withCaching then
          (so, getItemAfterCacheNWrap st so) :: (processPieces st rest).2.1
         else (processPieces st rest).2.1),
        (processPieces st rest).2.2 + 1) := by
  rw [processPieces]
  simp

theorem processPieces_flatten {α : Type} [Inhabited α] (st : DState α)
    (hc : CacheConsistent st.cache st.f) (t : Nat) (ht : t ≤ st.size) :
    ∀ pieces, (∀ q ∈ pieces, PieceOK st.cache t q) →
      (processPieces st pieces).1.flatten = (coversP pieces).map st.f := by
  intro pieces
  induction pieces with
  | nil => intro _; simp [processPieces_nil, coversP]
  | cons q rest ih =>
    intro hOK
    have hqOK := hOK q (List.mem_cons_self q rest)
    have hrest := fun q' hq' => hOK q' (List.mem_cons_of_mem q hq')
    obtain ⟨b, so⟩ := q
    simp only [PieceOK] at hqOK
    cases b
    · rw [processPieces_cons_false, coversP_cons]
      obtain ⟨hlo, hhi⟩ := hqOK.2 rfl
      rw [List.flatten_cons, ih hrest, List.map_append]
      rw [getItemAfterCacheNWrap_inbounds st so.start so.stop hlo (le_trans hhi ht)]
    · rw [processPieces_cons_true, coversP_cons]
      obtain ⟨hcon, hstop⟩ := hqOK.1 rfl
      rw [List.flatten_cons, ih hrest, List.map_append]
      have hr1 : so.stop - so.start = 1 := by omega
      rw [hr1, List.range'_one]
      simp only [List.map_cons, List.map_nil]
      rw [get_eq_of_consistent st.cache st.f hc so.start hcon]

theorem wrapSliceObj_inbounds (s t size : Nat) (h1 : s < t) (h2 : t ≤ size) :
    wrapSliceObj ⟨s, t⟩ size = ⟨s, t⟩ := by
  rw [wrapSliceObj]
  have hs : s % size = s := Nat.mod_eq_of_lt (by omega)
  by_cases ht : t = size
  · simp [ht, hs]
  · have htlt : t < size := lt_of_le_of_ne h2 ht
    simp [ht, hs, Nat.mod_eq_of_lt htlt]

/-- Single-process range-query correctness on an in-bounds non-wrap
request: with a cache consistent with the base, `_get_item` returns the
per-index base values of `[s, t)` in order, whatever is cached. -/
theorem getItem_correct {α : Type} [Inhabited α] (st : DState α) (s t : Nat)
    (h1 : s < t) (h2 : t ≤ st.size) (hc : CacheConsistent st.cache st.f) :
    (getItem st ⟨s, t⟩).1 = (List.range' s (t - s)).map st.f := by
  obtain ⟨hcov, hOK⟩ := splitSliceObj_spec st.cache s t h1
  rw [getItem]
  simp only [wrapSliceObj_inbounds s t st.size h1 h2]
  rw [processPieces_flatten st hc t h2 _ hOK, hcov]

/-! ## Second-query behaviour: all-hit splits and the first-query state -/

theorem splitScan_all_hit {α : Type} (c : Cache α) :
    ∀ (n j : Nat) (acc : List (Bool × Slice)),
      (∀ i, j ≤ i → i < j + n → c.contains i = true) →
      splitScan c (List.range' j n) acc j =
        (acc ++ (List.range' j n).map (fun i => ((true : Bool), (⟨i, i + 1⟩ : Slice))),
          j + n) := by
  intro n
  induction n with
  | zero => intro j acc _; simp [splitScan]
  | succ n ih =>
    intro j acc h
    rw [List.range'_succ, splitScan, if_pos (h j (le_refl j) (by omega)), if_pos rfl]
    have harith : j + (n + 1) = (j + 1) + n := by omega
    rw [harith, List.map_cons,
      show acc ++ ((true, (⟨j, j + 1⟩ : Slice)) :: (List.range' (j + 1) n).map
          (fun i => ((true : Bool), (⟨i, i + 1⟩ : Slice)))) =
        (acc ++ [(true, ⟨j, j + 1⟩)]) ++ (List.range' (j + 1) n).map
          (fun i => ((true : Bool), (⟨i, i + 1⟩ : Slice))) from by simp]
    exact ih (j + 1) (acc ++ [(true, ⟨j, j + 1⟩)]) (fun i hi1 hi2 => h i (by omega) (by omega))

theorem split_all_hit {α : Type} (c : Cache α) (s t : Nat) (h1 : s < t)
    (h : ∀ i, s ≤ i → i < t → c.contains i = true) :
    splitSliceObj ⟨s, t⟩ c =
      (List.range' s (t - s)).map (fun i => ((true : Bool), (⟨i, i + 1⟩ : Slice))) := by
  simp only [splitSliceObj]
  rw [splitScan_all_hit c (t - s) s [] (fun i hi1 hi2 => h i hi1 (by omega))]
  simp only [List.nil_append]
  rw [if_neg (by omega : ¬ s + (t - s) < t)]
  rw [if_neg (by
    simp only [List.isEmpty_eq_true, List.map_eq_nil_iff]
    intro hnil
    have := congrArg List.length hnil
    rw [List.length_range'] at this
    simp at this
    omega)]

theorem processPieces_all_hit {α : Type} [Inhabited α] (st : DState α) (l : List Nat) :
    processPieces st (l.map (fun i => ((true : Bool), (⟨i, i + 1⟩ : Slice)))) =
      (l.map (fun i => [st.cache.get i]), [], 0) := by
  induction l with
  | nil => rfl
  | cons i rest ih =>
    rw [List.map_cons, processPieces_cons_true, ih]
    simp

theorem flatten_map_singleton {α β : Type} (l : List α) (g : α → β) :
    (l.map (fun i => [g i])).flatten = l.map g := by
  induction l with
  | nil => rfl
  | cons a l ih => simp [ih]

theorem getD_map_range' {α : Type} [Inhabited α] (f : Nat → α) :
    ∀ (n s i : Nat), i < n → ((List.range' s n).map f).getD i default = f (s + i) := by
  intro n
  induction n with
  | zero => intro s i h; omega
  | succ n ih =>
    intro s i h
    rw [List.range'_succ, List.map_cons]
    cases i with
    | zero => simp
    | succ i' =>
      rw [List.getD_cons_succ, ih (s + 1) i' (by omega),
        show s + (i' + 1) = s + 1 + i' from by omega]

theorem find?_map_pair {α : Type} (g : Nat → α) :
    ∀ (ks : List Nat) (i : Nat), i ∈ ks →
      (ks.map (fun j => (j, g j))).find? (fun p => p.1 = i) = some (i, g i) := by
  intro ks
  induction ks with
  | nil => intro i h; cases h
  | cons j rest ih =>
    intro i h
    rw [List.map_cons, List.find?_cons]
    by_cases hj : j = i
    · subst hj
      simp
    · have hd : (decide ((j, g j).1 = i)) = false := by simp [hj]
      rw [hd]
      exact ih i (by
        rcases List.mem_cons.mp h with h' | h'
        · exact absurd h'.symm hj
        · exact h')

theorem get_explicit {α : Type} [Inhabited α] (m : Nat) (ks : List Nat) (g : Nat → α)
    (i : Nat) (hi : i ∈ ks) :
    (⟨m, ks, ks.map (fun j => (j, g j))⟩ : Cache α).get i = g i := by
  rw [Cache.get, find?_map_pair g ks i hi]

theorem contains_explicit {α : Type} (m : Nat) (ks : List Nat) (g : Nat → α)
    (i : Nat) (hi : i ∈ ks) :
    (⟨m, ks, ks.map (fun j => (j, g j))⟩ : Cache α).contains i = true := by
  rw [contains_iff_mem]
  simp only [keysOf, List.map_map]
  simpa using hi

theorem map_fst_pair_range {α : Type} (g : Nat → α) (l : List Nat) :
    keysOf (l.map (fun i => (i, g i))) = l := by
  induction l with
  | nil => rfl
  | cons a l ih => simp_all [keysOf]

theorem addToCache_empty_range {α : Type} [Inhabited α] (m s t : Nat) (item : List α)
    (hst : s < t) (hcap : t - s ≤ m) :
    addToCache (Cache.empty α m) ⟨s, t⟩ item =
      ⟨m, List.range' s (t - s),
        (List.range' s (t - s)).map (fun i => (i, item.getD (i - s) default))⟩ := by
  have hm : 0 < m := by omega
  have hfold : (List.range' s (t - s)).foldl
      (fun c i => c.setItem i (item.getD (i - s) default)) (Cache.empty α m) =
      ((List.range' s (t - s)).map (fun i => (i, item.getD (i - s) default))).foldl
        (fun c p => c.setItem p.1 p.2) (Cache.empty α m) := by
    rw [List.foldl_map]
  have hkeys : keysOf ((List.range' s (t - s)).map
      (fun i => (i, item.getD (i - s) default))) = List.range' s (t - s) :=
    map_fst_pair_range _ _
  have hnd : (keysOf ((List.range' s (t - s)).map
      (fun i => (i, item.getD (i - s) default)))).Nodup := by
    rw [hkeys]
    simp [List.nodup_range']
  rw [addToCache, hfold,
    show ((List.range' s (t - s)).map (fun i => (i, item.getD (i - s) default))).foldl
        (fun c p => c.setItem p.1 p.2) (Cache.empty α m) =
      Cache.insertAll ((List.range' s (t - s)).map (fun i => (i, item.getD (i - s) default))) m
      from rfl,
    insertAll_eq_lruState _ m hm hnd]
  have hlen0 : ((List.range' s (t - s)).map
      (fun i => (i, item.getD (i - s) default))).length - m = 0 := by
    simp only [List.length_map, List.length_range']
    omega
  rw [lruState, hlen0]
  simp only [List.drop_zero]
  rw [hkeys]

/-- The first range query on a fresh (empty-cache) caching stage: one
uncached fetch of the whole range, whose per-unit values then populate
the cache in index order. -/
theorem getItem_first_query_empty {α : Type} [Inhabited α] (f : Nat → α)
    (size m s t : Nat) (h1 : s < t) (h2 : t ≤ size) (hcap : t - s ≤ m) :
    getItem ⟨f, size, true, Cache.empty α m⟩ ⟨s, t⟩ =
      ((List.range' s (t - s)).map f,
        ⟨f, size, true,
          ⟨m, List.range' s (t - s), (List.range' s (t - s)).map (fun i => (i, f i))⟩⟩,
        1) := by
  have hmiss : ∀ i, s ≤ i → i < t → (Cache.empty α m).contains i = false :=
    fun i _ _ => rfl
  have hfetch : getItemAfterCacheNWrap (⟨f, size, true, Cache.empty α m⟩ : DState α) ⟨s, t⟩ =
      (List.range' s (t - s)).map f :=
    getItemAfterCacheNWrap_inbounds _ s t h1 h2
  rw [getItem]
  simp only [wrapSliceObj_inbounds s t size h1 h2]
  rw [split_all_miss ⟨s, t⟩ (Cache.empty α m) (Nat.le_of_lt h1) hmiss]
  rw [processPieces_cons_false, processPieces_nil]
  simp only [hfetch, eq_self_iff_true, if_true]
  rw [List.foldl_cons, List.foldl_nil]
  rw [addToCache_empty_range m s t ((List.range' s (t - s)).map f) h1 hcap]
  have hvals : (List.range' s (t - s)).map
      (fun i => (i, ((List.range' s (t - s)).map f).getD (i - s) default)) =
      (List.range' s (t - s)).map (fun i => (i, f i)) := by
    apply List.map_congr_left
    intro i hi
    rcases List.mem_range'_1.mp hi with ⟨hi1, hi2⟩
    rw [getD_map_range' f (t - s) s (i - s) (by omega),
      show s + (i - s) = i from by omega]
  rw [hvals]
  simp

/-- C2 (amended): on a caching stage whose cache starts empty (no unit
index of the request precached) with capacity at least the range width,
the same in-bounds range query issued twice returns identical results
and the second query performs no uncached fetch: every unit index is
served from the cache the first query populated. -/
theorem repeat_range_query_hits_cache {α : Type} [Inhabited α] (f : Nat → α)
    (size m s t : Nat) (h1 : s < t) (h2 : t ≤ size) (hcap : t - s ≤ m) :
    ((getItem ((getItem (⟨f, size, true, Cache.empty α m⟩ : DState α) ⟨s, t⟩).2.1) ⟨s, t⟩).1 =
        (getItem (⟨f, size, true, Cache.empty α m⟩ : DState α) ⟨s, t⟩).1) ∧
      (getItem ((getItem (⟨f, size, true, Cache.empty α m⟩ : DState α) ⟨s, t⟩).2.1) ⟨s, t⟩).2.2 = 0 := by
  rw [getItem_first_query_empty f size m s t h1 h2 hcap]
  set st1 : DState α :=
    ⟨f, size, true,
      ⟨m, List.range' s (t - s), (List.range' s (t - s)).map (fun i => (i, f i))⟩⟩ with hst1
  have hhit : ∀ i, s ≤ i → i < t → st1.cache.contains i = true := by
    intro i hi1 hi2
    exact contains_explicit m (List.range' s (t - s)) f i
      (List.mem_range'_1.mpr ⟨hi1, by omega⟩)
  have hsplit : splitSliceObj ⟨s, t⟩ st1.cache =
      (List.range' s (t - s)).map (fun i => ((true : Bool), (⟨i, i + 1⟩ : Slice))) :=
    split_all_hit st1.cache s t h1 hhit
  rw [getItem]
  simp only [wrapSliceObj_inbounds s t size h1 h2]
  rw [hsplit, processPieces_all_hit st1 (List.range' s (t - s))]
  simp only [List.foldl_nil]
  rw [flatten_map_singleton]
  refine ⟨?_, trivial⟩
  apply List.map_congr_left
  intro i hi
  exact get_explicit m (List.range' s (t - s)) f i hi

/-- Witness for C2 (amended): size-10 stage, capacity 5, range `[2, 6)`
twice. -/
theorem repeat_range_query_hits_cache_witness :
    ((getItem ((getItem (⟨fun i => i * 10, 10, true, Cache.empty Nat 5⟩ : DState Nat) ⟨2, 6⟩).2.1) ⟨2, 6⟩).1 =
        (getItem (⟨fun i => i * 10, 10, true, Cache.empty Nat 5⟩ : DState Nat) ⟨2, 6⟩).1) ∧
      (getItem ((getItem (⟨fun i => i * 10, 10, true, Cache.empty Nat 5⟩ : DState Nat) ⟨2, 6⟩).2.1) ⟨2, 6⟩).2.2 = 0 :=
  repeat_range_query_hits_cache (fun i => i * 10) 10 5 2 6 (by decide) (by decide) (by decide)

/-- Counterexample to C2 as stated: with arbitrary prior cache contents
the claim fails.  Capacity 2 (≥ the width 2 of `[0, 2)`); point queries on
1 and then 9 leave the cache holding keys 1 and 9 with 1 least recently
*inserted*.  Querying `[0, 2)` then serves 1 from cache but the insertion
of the fresh index 0 evicts key 1 (cache reads do not refresh recency),
so repeating `[0, 2)` performs one uncached fetch, not zero — though the
two results are identical. -/
theorem repeat_range_query_counterexample :
    (getItem (getItem (getItemPoint (getItemPoint
        (⟨fun i => i * 10, 10, true, Cache.empty Nat 2⟩ : DState Nat) 1).2.1 9).2.1
        ⟨0, 2⟩).2.1 ⟨0, 2⟩).2.2 = 1 ∧
      (getItem (getItem (getItemPoint (getItemPoint
        (⟨fun i => i * 10, 10, true, Cache.empty Nat 2⟩ : DState Nat) 1).2.1 9).2.1
        ⟨0, 2⟩).2.1 ⟨0, 2⟩).1 =
      (getItem (getItemPoint (getItemPoint
        (⟨fun i => i * 10, 10, true, Cache.empty Nat 2⟩ : DState Nat) 1).2.1 9).2.1
        ⟨0, 2⟩).1 :=
  ⟨rfl, rfl⟩

/-! ## Banker's rounding lemmas for the fan-out slice points -/

theorem roundHalfEven_cases (q : ℚ) :
    roundHalfEven q = ⌊q⌋ ∨ roundHalfEven q = ⌊q⌋ + 1 := by
  rw [roundHalfEven]
  split_ifs <;> simp

theorem roundHalfEven_eq_floor_of_lt {q : ℚ} (h : q - ⌊q⌋ < 1 / 2) :
    roundHalfEven q = ⌊q⌋ := by
  rw [roundHalfEven, if_pos h]

theorem roundHalfEven_eq_succ_of_gt {q : ℚ} (h : 1 / 2 < q - ⌊q⌋) :
    roundHalfEven q = ⌊q⌋ + 1 := by
  rw [roundHalfEven, if_neg (by linarith), if_pos h]

theorem roundHalfEven_intCast (z : ℤ) : roundHalfEven (z : ℚ) = z := by
  have h : ((z : ℚ)) - ⌊(z : ℚ)⌋ < 1 / 2 := by
    rw [Int.floor_intCast]
    norm_num
  rw [roundHalfEven_eq_floor_of_lt h, Int.floor_intCast]

theorem roundHalfEven_natCast (n : Nat) : roundHalfEven (n : ℚ) = n := by
  have := roundHalfEven_intCast (n : ℤ)
  rwa [show (((n : ℤ) : ℚ)) = (n : ℚ) from by push_cast; rfl] at this

theorem roundHalfEven_mono {p q : ℚ} (h : p ≤ q) :
    roundHalfEven p ≤ roundHalfEven q := by
  rcases lt_or_eq_of_le (Int.floor_le_floor h) with hf | hf
  · rcases roundHalfEven_cases p with hp | hp <;>
      rcases roundHalfEven_cases q with hq | hq <;> omega
  · have hpq : p - (⌊p⌋ : ℚ) ≤ q - (⌊q⌋ : ℚ) := by
      rw [← hf]
      linarith
    rw [roundHalfEven, roundHalfEven, ← hf]
    split_ifs <;> first | omega | linarith

theorem roundHalfEven_half_le_of_eq_succ {q : ℚ} (h : roundHalfEven q = ⌊q⌋ + 1) :
    1 / 2 ≤ q - ⌊q⌋ := by
  by_contra hlt
  rw [roundHalfEven_eq_floor_of_lt (by linarith)] at h
  omega

theorem roundHalfEven_strict {x y : ℚ} (h : x + 1 < y) :
    roundHalfEven x < roundHalfEven y := by
  have hfl : ⌊x⌋ + 1 ≤ ⌊y⌋ := by
    rw [show (⌊x⌋ : ℤ) + 1 = ⌊x + 1⌋ from by rw [Int.floor_add_one]]
    exact Int.floor_le_floor (le_of_lt h)
  rcases lt_or_eq_of_le hfl with hfl2 | hfl2
  · rcases roundHalfEven_cases x with hx | hx <;>
      rcases roundHalfEven_cases y with hy | hy <;> omega
  · rcases roundHalfEven_cases x with hx | hx
    · rcases roundHalfEven_cases y with hy | hy <;> omega
    · have hhalf : (1 : ℚ) / 2 ≤ x - ⌊x⌋ := roundHalfEven_half_le_of_eq_succ hx
      have hyq : (⌊y⌋ : ℚ) = (⌊x⌋ : ℚ) + 1 := by
        rw [← hfl2]
        push_cast
        ring
      have hyfrac : (1 : ℚ) / 2 < y - ⌊y⌋ := by
        rw [hyq]
        linarith
      rw [roundHalfEven_eq_succ_of_gt hyfrac, hx]
      omega

/-! ## Linspace point lemmas -/

theorem linspaceQ_zero (a b n : Nat) : linspaceQ a b n 0 = a := by
  rw [linspaceQ]
  split_ifs <;> simp

theorem linspaceQ_last (a b n : Nat) (hn : n ≠ 0) : linspaceQ a b n n = b := by
  rw [linspaceQ, if_neg hn]
  have hn' : (n : ℚ) ≠ 0 := Nat.cast_ne_zero.mpr hn
  field_simp

theorem linspaceQ_mono (a b n : Nat) (hab : a ≤ b) {k k' : Nat} (hk : k ≤ k') :
    linspaceQ a b n k ≤ linspaceQ a b n k' := by
  rw [linspaceQ, linspaceQ]
  split_ifs with hn
  · exact le_refl _
  · have hd : (0 : ℚ) ≤ ((b : ℚ) - a) / n := by
      apply div_nonneg
      · rw [sub_nonneg]
        exact_mod_cast hab
      · positivity
    have hkk : (k : ℚ) ≤ (k' : ℚ) := by exact_mod_cast hk
    have := mul_le_mul_of_nonneg_right hkk hd
    rw [mul_div_assoc, mul_div_assoc]
    linarith

theorem linspaceQ_gap (a b n : Nat) (hn : n ≠ 0) (k : Nat) :
    linspaceQ a b n (k + 1) = linspaceQ a b n k + ((b : ℚ) - a) / n := by
  rw [linspaceQ, linspaceQ, if_neg hn, if_neg hn]
  push_cast
  ring

theorem pt_le_of_le (pt : Nat → Nat) (n : Nat)
    (hstep : ∀ k, k < n → pt k ≤ pt (k + 1)) :
    ∀ i j, i ≤ j → j ≤ n → pt i ≤ pt j := by
  intro i j hij hjn
  induction j with
  | zero => simp [Nat.le_zero.mp hij]
  | succ j ih =>
    rcases Nat.lt_or_ge i (j + 1) with h | h
    · exact le_trans (ih (by omega) (by omega)) (hstep j (by omega))
    · rw [show i = j + 1 from by omega]

/-- The fan-out slice points for an in-bounds non-wrap request: there is
at least one sub-slice, the points start at `start`, end at `stop`, and
are strictly increasing. -/
theorem fanOut_pt_spec (s t P : Nat) (h1 : s < t) (hP : 1 ≤ P) :
    1 ≤ (min ((t : Int) - (s : Int)) (P : Int)).toNat ∧
      (min ((t : Int) - (s : Int)) (P : Int)).toNat ≤ t - s ∧
      (fun k => (roundHalfEven (linspaceQ s t
        (min ((t : Int) - (s : Int)) (P : Int)).toNat k)).toNat) 0 = s ∧
      (fun k => (roundHalfEven (linspaceQ s t
        (min ((t : Int) - (s : Int)) (P : Int)).toNat k)).toNat)
        (min ((t : Int) - (s : Int)) (P : Int)).toNat = t ∧
      (∀ k, k < (min ((t : Int) - (s : Int)) (P : Int)).toNat →
        (fun k => (roundHalfEven (linspaceQ s t
          (min ((t : Int) - (s : Int)) (P : Int)).toNat k)).toNat) k <
        (fun k => (roundHalfEven (linspaceQ s t
          (min ((t : Int) - (s : Int)) (P : Int)).toNat k)).toNat) (k + 1)) := by
  set n := (min ((t : Int) - (s : Int)) (P : Int)).toNat with hn
  have hmin1 : (1 : Int) ≤ min ((t : Int) - (s : Int)) (P : Int) :=
    le_min (by omega) (by omega)
  have hminle : min ((t : Int) - (s : Int)) (P : Int) ≤ (t : Int) - (s : Int) :=
    min_le_left _ _
  have hn1 : 1 ≤ n := by omega
  have hnts : n ≤ t - s := by omega
  have hn0 : n ≠ 0 := by omega
  have hcast : ((n : ℚ)) ≤ (t : ℚ) - (s : ℚ) := by
    have : ((n : Int) : ℚ) ≤ (((t : Int) - (s : Int) : Int) : ℚ) := by
      exact_mod_cast (by omega : (n : Int) ≤ (t : Int) - (s : Int))
    push_cast at this
    linarith
  have hpt0 : (roundHalfEven (linspaceQ s t n 0)).toNat = s := by
    rw [linspaceQ_zero, roundHalfEven_natCast]
    simp
  have hptn : (roundHalfEven (linspaceQ s t n n)).toNat = t := by
    rw [linspaceQ_last s t n hn0, roundHalfEven_natCast]
    simp
  have hlow : ∀ k, (s : ℤ) ≤ roundHalfEven (linspaceQ s t n k) := by
    intro k
    have := roundHalfEven_mono (linspaceQ_mono s t n (le_of_lt h1) (Nat.zero_le k))
    rwa [linspaceQ_zero, roundHalfEven_natCast] at this
  refine ⟨hn1, hnts, hpt0, hptn, ?_⟩
  intro k hk
  simp only
  rcases Nat.lt_or_ge n (t - s) with hcase | hcase
  · -- spacing strictly greater than 1: strict rounding
    have hgap : (1 : ℚ) < ((t : ℚ) - s) / n := by
      rw [lt_div_iff₀ (by positivity)]
      have : ((n : ℚ)) < (t : ℚ) - s := by
        have h' : ((n : ℕ) : ℚ) < (((t - s : ℕ)) : ℚ) := by exact_mod_cast hcase
        push_cast at h'
        have hts : (((t - s : ℕ)) : ℚ) = (t : ℚ) - s := by
          push_cast [Nat.cast_sub (le_of_lt h1)]
          ring
        rw [hts] at h'
        exact h'
      linarith
    have hstrict : linspaceQ s t n k + 1 < linspaceQ s t n (k + 1) := by
      rw [linspaceQ_gap s t n hn0 k]
      linarith
    have := roundHalfEven_strict hstrict
    have hl := hlow k
    omega
  · -- spacing exactly 1: the points are successive integers
    have hne : n = t - s := by omega
    have hlinint : ∀ j, linspaceQ s t n j = ((s + j : ℕ) : ℚ) := by
      intro j
      rw [linspaceQ, if_neg hn0]
      have hts : ((t : ℚ) - s) = (n : ℚ) := by
        rw [hne]
        push_cast [Nat.cast_sub (le_of_lt h1)]
        ring
      rw [hts, mul_div_assoc, div_self (Nat.cast_ne_zero.mpr hn0)]
      push_cast
      ring
    rw [hlinint k, hlinint (k + 1), roundHalfEven_natCast, roundHalfEven_natCast]
    simp
    omega

theorem flatten_map_range'_chunks {α : Type} (f : Nat → α) (pt : Nat → Nat) :
    ∀ n, (∀ k, k < n → pt k ≤ pt (k + 1)) →
      ((List.range n).map (fun k => (List.range' (pt k) (pt (k + 1) - pt k)).map f)).flatten =
        (List.range' (pt 0) (pt n - pt 0)).map f := by
  intro n
  induction n with
  | zero => simp
  | succ n ih =>
    intro hmono
    rw [List.range_succ, List.map_append, List.flatten_append,
      ih (fun k hk => hmono k (by omega))]
    simp only [List.map_cons, List.map_nil, List.flatten_cons, List.flatten_nil,
      List.append_nil]
    rw [← List.map_append]
    have h0n : pt 0 ≤ pt n :=
      pt_le_of_le pt (n + 1) hmono 0 n (Nat.zero_le n) (by omega)
    have hnn : pt n ≤ pt (n + 1) := hmono n (by omega)
    have happ := range'_append_range' (pt 0) (pt n - pt 0) (pt (n + 1) - pt n)
    rw [show pt 0 + (pt n - pt 0) = pt n from by omega] at happ
    rw [happ, show pt n - pt 0 + (pt (n + 1) - pt n) = pt (n + 1) - pt 0 from by omega]

theorem enum_map_snd_comp {β γ : Type} (l : List β) (g : β → γ) :
    l.enum.map (fun p => g p.2) = l.map g := by
  rw [show (fun p : Nat × β => g p.2) = g ∘ Prod.snd from rfl, ← List.map_map,
    List.enum_map_snd]

/-- The worker-collected item lists of a fan-out over strictly increasing
points: each equals the base values of its sub-range, independently of
which worker computed it. -/
theorem fanout_items_flatten {α : Type} [Inhabited α] (workers : Nat → DState α)
    (f : Nat → α) (size P offset : Nat)
    (hw : ∀ j, (workers j).f = f ∧ (workers j).size = size ∧
      CacheConsistent (workers j).cache (workers j).f)
    (n : Nat) (ptf : Nat → Nat) (t : Nat)
    (hstep : ∀ k, k < n → ptf k < ptf (k + 1))
    (hub : ptf n = t) (hts : t ≤ size) :
    ((((List.range n).map (fun k => (⟨ptf k, ptf (k + 1)⟩ : Slice))).enum.map
        (fun p => (getItem (workers ((p.1 + offset) % P)) p.2).1)).flatten =
      (List.range' (ptf 0) (ptf n - ptf 0)).map f) := by
  have hmono : ∀ k, k < n → ptf k ≤ ptf (k + 1) := fun k hk => le_of_lt (hstep k hk)
  have hvals : ∀ p ∈ ((List.range n).map (fun k => (⟨ptf k, ptf (k + 1)⟩ : Slice))).enum,
      (getItem (workers ((p.1 + offset) % P)) p.2).1 =
        (List.range' p.2.start (p.2.stop - p.2.start)).map f := by
    intro p hp
    rw [List.mem_enum_iff_getElem?] at hp
    rw [List.getElem?_map] at hp
    by_cases hlt : p.1 < n
    · rw [List.getElem?_eq_getElem (by simpa using hlt)] at hp
      simp only [List.getElem_range, Option.map_some] at hp
      have hp2 : p.2 = (⟨ptf p.1, ptf (p.1 + 1)⟩ : Slice) := by
        exact (Option.some.injEq _ _ ▸ hp.symm :)
      obtain ⟨hwf, hwsize, hwcons⟩ := hw ((p.1 + offset) % P)
      have hbounds1 : ptf p.1 < ptf (p.1 + 1) := hstep p.1 hlt
      have hbounds2 : ptf (p.1 + 1) ≤ (workers ((p.1 + offset) % P)).size := by
        rw [hwsize]
        have : ptf (p.1 + 1) ≤ ptf n :=
          pt_le_of_le ptf n hmono (p.1 + 1) n (by omega) (le_refl n)
        omega
      have hcorrect := getItem_correct (workers ((p.1 + offset) % P))
        (ptf p.1) (ptf (p.1 + 1)) hbounds1 hbounds2 hwcons
      rw [hp2, hcorrect, hwf]
    · rw [List.getElem?_eq_none (by simpa using hlt)] at hp
      simp at hp
  rw [List.map_congr_left hvals]
  rw [enum_map_snd_comp _ (fun ss : Slice => (List.range' ss.start (ss.stop - ss.start)).map f)]
  rw [List.map_map]
  exact flatten_map_range'_chunks f ptf n hmono

/-- C4 (amended): for every in-bounds non-wrap range request
(`start < stop ≤ size`) on a multi-process stage, the fan-out result —
sub-slice `i` computed by worker `(i + offset) % P` on its own deep
copy, collected in dispatch order and joined in request order — equals,
element for element, the single-process `_get_item` result on the
coordinator, for every worker offset and any (consistent) worker cache
states. -/
theorem parallel_fanout_matches_single {α : Type} [Inhabited α] (st : DState α)
    (workers : Nat → DState α) (P offset : Nat) (slc : Slice)
    (hP : 2 ≤ P) (h1 : slc.start < slc.stop) (h2 : slc.stop ≤ st.size)
    (hcons : CacheConsistent st.cache st.f)
    (hw : ∀ j, (workers j).f = st.f ∧ (workers j).size = st.size ∧
      CacheConsistent (workers j).cache (workers j).f) :
    Except.map Prod.fst (parallelGetItem st workers P offset slc) =
      Except.ok ((getItem st slc).1) := by
  obtain ⟨s, t⟩ := slc
  simp only at h1 h2
  obtain ⟨hn1, hnts, hpt0, hptn, hstep⟩ := fanOut_pt_spec s t P h1 (by omega)
  simp only at hpt0 hptn hstep
  have hmin1 : (1 : Int) ≤ min ((t : Int) - (s : Int)) (P : Int) :=
    le_min (by omega) (by omega)
  simp only [parallelGetItem]
  rw [if_neg (by omega : ¬ (min ((t : Int) - (s : Int)) (P : Int) + 1 < 0))]
  simp only [Except.map, Except.ok.injEq]
  rw [show fanOutSubSlices P ⟨s, t⟩ =
      (List.range ((min ((t : Int) - (s : Int)) (P : Int)).toNat)).map
        (fun k =>
          (⟨(roundHalfEven (linspaceQ s t ((min ((t : Int) - (s : Int)) (P : Int)).toNat) k)).toNat,
            (roundHalfEven (linspaceQ s t ((min ((t : Int) - (s : Int)) (P : Int)).toNat) (k + 1))).toNat⟩ : Slice))
      from rfl]
  rw [fanout_items_flatten workers st.f st.size P offset hw
    ((min ((t : Int) - (s : Int)) (P : Int)).toNat)
    (fun k => (roundHalfEven (linspaceQ s t ((min ((t : Int) - (s : Int)) (P : Int)).toNat) k)).toNat)
    t hstep hptn h2]
  simp only [hpt0, hptn]
  rw [getItem_correct st s t h1 h2 hcons]

/-- Counterexample to C4 as stated: a wrap-around range (here `[8, 2)` on
a size-10 stage) makes the fan-out branch compute a negative number of
linspace samples and abort, while the single-process path returns the four
wrapped elements. -/
theorem parallel_wrap_range_errors :
    parallelGetItem (⟨fun i => i * 10, 10, true, Cache.empty Nat 9⟩ : DState Nat)
        (fun _ => ⟨fun i => i * 10, 10, true, Cache.empty Nat 9⟩) 3 0 ⟨8, 2⟩ =
      Except.error "ValueError: Number of samples must be non-negative" ∧
      (getItem (⟨fun i => i * 10, 10, true, Cache.empty Nat 9⟩ : DState Nat) ⟨8, 2⟩).1 =
        [80, 90, 0, 10] :=
  ⟨rfl, rfl⟩

/-- Witness for C4 (amended): 3 workers, range `[0, 9)` over a size-9
stage, offset 1. -/
theorem parallel_fanout_matches_single_witness :
    Except.map Prod.fst (parallelGetItem (⟨fun i => i, 9, true, Cache.empty Nat 9⟩ : DState Nat)
        (fun _ => ⟨fun i => i, 9, true, Cache.empty Nat 9⟩) 3 1 ⟨0, 9⟩) =
      Except.ok ((getItem (⟨fun i => i, 9, true, Cache.empty Nat 9⟩ : DState Nat) ⟨0, 9⟩).1) :=
  parallel_fanout_matches_single _ _ 3 1 ⟨0, 9⟩ (by omega) (by decide) (by decide)
    (fun p hp => nomatch hp) (fun j => ⟨rfl, rfl, fun p hp => nomatch hp⟩)

/-! ## Coordinator-cache effects of the fan-out (C9) -/

theorem processPieces_forCache_no_caching {α : Type} [Inhabited α] (st : DState α)
    (h : st.withCaching = false) :
    ∀ pieces, (processPieces st pieces).2.1 = [] := by
  intro pieces
  induction pieces with
  | nil => rfl
  | cons q rest ih =>
    obtain ⟨b, so⟩ := q
    cases b
    · rw [processPieces_cons_false]
      simp [h, ih]
    · rw [processPieces_cons_true]
      simp [ih]

theorem getItem_state_no_caching {α : Type} [Inhabited α] (st : DState α) (slc : Slice)
    (h : st.withCaching = false) : (getItem st slc).2.1 = st := by
  rw [getItem]
  simp only [processPieces_forCache_no_caching st h, List.foldl_nil]

theorem foldl_getItem_state_no_caching {α : Type} [Inhabited α] :
    ∀ (l : List Slice) (st : DState α), st.withCaching = false →
      l.foldl (fun s2 ss => (getItem s2 ss).2.1) st = st := by
  intro l
  induction l with
  | nil => intro st _; rfl
  | cons ss rest ih =>
    intro st h
    rw [List.foldl_cons, getItem_state_no_caching st ss h]
    exact ih st h

/-- C9 (amended): a fanned-out range query *can* change the coordinator's
cache, but only through the coordinator's own inline (mismatch-logging)
recomputation of each sub-range via `self._get_item`: the post-query
coordinator state is exactly the fold of the inline single-process fetch
over the dispatched sub-slices — independent of the workers and of their
results, which are never inserted into the coordinator's cache — and with
caching disabled the coordinator state is unchanged. -/
theorem parallel_coordinator_cache_frame {α : Type} [Inhabited α] (st : DState α)
    (workers : Nat → DState α) (P offset : Nat) (slc : Slice) (r : List α)
    (st1 : DState α)
    (hok : parallelGetItem st workers P offset slc = Except.ok (r, st1)) :
    st1 = (fanOutSubSlices P slc).foldl (fun s2 ss => (getItem s2 ss).2.1) st ∧
      (st.withCaching = false → st1 = st) := by
  rw [parallelGetItem] at hok
  by_cases hcond : min ((slc.stop : Int) - (slc.start : Int)) (P : Int) + 1 < 0
  · rw [if_pos hcond] at hok
    exact absurd hok (by simp)
  · rw [if_neg hcond] at hok
    simp only [Except.ok.injEq, Prod.mk.injEq] at hok
    obtain ⟨-, hst1⟩ := hok
    refine ⟨hst1.symm, fun hoff => ?_⟩
    rw [← hst1, foldl_getItem_state_no_caching _ st hoff]

/-- The concrete fan-out decomposition of `[0, 4)` across two workers:
linspace points 0, 2, 4. -/
theorem fanOutSubSlices_two_four : fanOutSubSlices 2 ⟨0, 4⟩ = [⟨0, 2⟩, ⟨2, 4⟩] := by
  have hl0 : linspaceQ 0 4 2 0 = ((0 : Nat) : ℚ) := by rw [linspaceQ]; norm_num
  have hl1 : linspaceQ 0 4 2 1 = ((2 : Nat) : ℚ) := by rw [linspaceQ]; norm_num
  have hl2 : linspaceQ 0 4 2 2 = ((4 : Nat) : ℚ) := by rw [linspaceQ]; norm_num
  have hn : (min (((4 : Nat) : Int) - ((0 : Nat) : Int)) (((2 : Nat) : Int))).toNat = 2 := by
    decide
  simp only [fanOutSubSlices]
  rw [hn]
  rw [show List.range 2 = [0, 1] from rfl]
  simp only [List.map_cons, List.map_nil]
  rw [hl0, hl1, hl2, roundHalfEven_natCast, roundHalfEven_natCast, roundHalfEven_natCast]
  rfl

/-- Witness for C9 (amended): a two-worker fan-out of `[0, 4)` on a
caching-disabled coordinator leaves the coordinator state untouched (and
equal to the inline fold). -/
theorem parallel_coordinator_cache_frame_witness :
    ((⟨fun i => i, 4, false, Cache.empty Nat 4⟩ : DState Nat) =
      (fanOutSubSlices 2 ⟨0, 4⟩).foldl (fun s2 ss => (getItem s2 ss).2.1)
        (⟨fun i => i, 4, false, Cache.empty Nat 4⟩ : DState Nat)) ∧
      ((⟨fun i => i, 4, false, Cache.empty Nat 4⟩ : DState Nat) =
        (⟨fun i => i, 4, false, Cache.empty Nat 4⟩ : DState Nat)) := by
  have hok : parallelGetItem (⟨fun i => i, 4, false, Cache.empty Nat 4⟩ : DState Nat)
      (fun _ => (⟨fun i => i, 4, false, Cache.empty Nat 4⟩ : DState Nat)) 2 0 ⟨0, 4⟩ =
      Except.ok ([0, 1, 2, 3], (⟨fun i => i, 4, false, Cache.empty Nat 4⟩ : DState Nat)) := by
    simp only [parallelGetItem]
    rw [if_neg (by decide), fanOutSubSlices_two_four]
    rfl
  have h := parallel_coordinator_cache_frame
    (⟨fun i => i, 4, false, Cache.empty Nat 4⟩ : DState Nat)
    (fun _ => (⟨fun i => i, 4, false, Cache.empty Nat 4⟩ : DState Nat)) 2 0 ⟨0, 4⟩
    [0, 1, 2, 3] (⟨fun i => i, 4, false, Cache.empty Nat 4⟩ : DState Nat) hok
  exact ⟨h.1, h.2 rfl⟩

/-- Counterexample to C9 as stated: with caching enabled, a fanned-out
query of `[0, 4)` on a 2-worker size-4 stage populates the coordinator's
own cache (index 0 becomes cached), so the coordinator cache is *not*
unchanged by the fanned-out query. -/
theorem parallel_query_mutates_coordinator_cache :
    ((parallelGetItem (⟨fun i => i, 4, true, Cache.empty Nat 4⟩ : DState Nat)
        (fun _ => ⟨fun i => i, 4, true, Cache.empty Nat 4⟩) 2 0 ⟨0, 4⟩).toOption.map
        (fun p => p.2.cache.contains 0)) = some true ∧
      (⟨fun i => i, 4, true, Cache.empty Nat 4⟩ : DState Nat).cache.contains 0 = false := by
  refine ⟨?_, rfl⟩
  simp only [parallelGetItem]
  rw [if_neg (by decide), fanOutSubSlices_two_four]
  rfl
